import Mathlib

/-!
Verification of the pdfmagick core against its specification.

Shallow embedding conventions:
* 8-bit samples are natural numbers; normalized samples and all
  intermediate floating-point arithmetic are modelled exactly in `ℚ`.
* Transcendental library functions (`np.exp`, `np.power` with fractional
  exponents) and the PIL/cv2 enhancer bodies are abstracted as function
  parameters; all repository-level arithmetic and control flow is embedded
  concretely.
* Python dicts are association lists in insertion order; `dict[k] = v`
  updates in place when the key is present and appends otherwise.
-/

namespace PdfMagick

/-- An 8-bit raster image: a flat list of samples, either one channel
(grayscale) or three channels (RGB triples), mirroring the numpy arrays the
filter code operates on. -/
inductive Img where
  | gray : List ℕ → Img
  | rgb : List (ℕ × ℕ × ℕ) → Img
  deriving DecidableEq

/-- Normalize an 8-bit sample to the unit interval, as in
`np.array(image).astype(np.float32) / 255.0`. -/
def toUnit (v : ℕ) : ℚ := (v : ℚ) / 255

/-- Clip a normalized value to the unit interval, as in `np.clip(x, 0, 1)`. -/
def clip01 (x : ℚ) : ℚ := max 0 (min 1 x)

/-- Re-quantize a clipped normalized value to 8 bits, as in
`(x * 255).astype(np.uint8)` (truncation toward zero; inputs here are
non-negative, so truncation is the floor). -/
def quantByte (x : ℚ) : ℕ := ⌊x * 255⌋.toNat

/-- Per-pixel luminance `0.299 R + 0.587 G + 0.114 B` over normalized
samples (image_filters.py line 65). -/
def lum (r g b : ℚ) : ℚ := 299/1000 * r + 587/1000 * g + 114/1000 * b

/-- All samples of an image as a flat list (RGB triples flattened in
channel order). -/
def Img.samples : Img → List ℕ
  | .gray vs => vs
  | .rgb ps => ps.flatMap (fun p => [p.1, p.2.1, p.2.2])

/- ### Cut-and-stack page arrangement (src/src/app.py, arrange_pages_cut_and_stack) -/

/-- The four slots `[front_left, front_right, back_left, back_right]` of
sheet `i` (0-based) for a document of `n` pages arranged on `sheets`
sheets; a slot exceeding `n` is `none` (blank). Mirrors the loop body of
`arrange_pages_cut_and_stack`. -/
def cutStackSheet (n sheets i : ℕ) : List (Option ℕ) :=
  [if 2 * i + 1 ≤ n then some (2 * i + 1) else none,
   if 2 * sheets + 2 * i + 1 ≤ n then some (2 * sheets + 2 * i + 1) else none,
   if 2 * sheets + 2 * i + 2 ≤ n then some (2 * sheets + 2 * i + 2) else none,
   if 2 * i + 2 ≤ n then some (2 * i + 2) else none]

/-- Embedding of `arrange_pages_cut_and_stack(n)`: `math.ceil(n/4)` sheets
of four slots each, concatenated in sheet order. -/
def arrange_pages_cut_and_stack (n : ℕ) : List (Option ℕ) :=
  ((List.range ((n + 3) / 4)).map (cutStackSheet n ((n + 3) / 4))).flatten

/- ### Adjustment pipeline (src/core/image_filters.py) -/

/-- A working image over `ℚ`: the float array the filter stages operate
on, with the same gray/rgb shape split as `Img`. -/
inductive FImg where
  | fgray : List ℚ → FImg
  | frgb : List (ℚ × ℚ × ℚ) → FImg
  deriving DecidableEq

/-- Normalize an 8-bit image to a float image (`astype(np.float32)/255`). -/
def imgToF : Img → FImg
  | .gray vs => .fgray (vs.map toUnit)
  | .rgb ps => .frgb (ps.map fun p => (toUnit p.1, toUnit p.2.1, toUnit p.2.2))

/-- Per-pixel luminance list of a float image: the weighted channel sum for
RGB, the raw sample for single-channel images (image_filters.py 64-67). -/
def lumF : FImg → List ℚ
  | .fgray vs => vs
  | .frgb ps => ps.map fun p => lum p.1 p.2.1 p.2.2

/-- Multiply every channel of every pixel by `1 + factor * mask`, the mask
taken pointwise from a per-pixel mask list (highlight/midtone sub-stages). -/
def mulMask (factor : ℚ) (mask : List ℚ) : FImg → FImg
  | .fgray vs => .fgray (List.zipWith (fun v m => v * (1 + factor * m)) vs mask)
  | .frgb ps => .frgb (List.zipWith
      (fun p m => (p.1 * (1 + factor * m), p.2.1 * (1 + factor * m), p.2.2 * (1 + factor * m)))
      ps mask)

/-- Add `factor * mask` to every channel of every pixel (shadow sub-stage,
which is additive in the source). -/
def addMask (factor : ℚ) (mask : List ℚ) : FImg → FImg
  | .fgray vs => .fgray (List.zipWith (fun v m => v + factor * m) vs mask)
  | .frgb ps => .frgb (List.zipWith
      (fun p m => (p.1 + factor * m, p.2.1 + factor * m, p.2.2 + factor * m))
      ps mask)

/-- Final `np.clip(arr, 0, 1)` followed by `(arr*255).astype(np.uint8)`. -/
def clipQuantF : FImg → Img
  | .fgray vs => .gray (vs.map fun v => quantByte (clip01 v))
  | .frgb ps => .rgb (ps.map fun p =>
      (quantByte (clip01 p.1), quantByte (clip01 p.2.1), quantByte (clip01 p.2.2)))

/-- Embedding of `ImageFilters.adjust_highlights_midtones_shadows`.
`mexp` abstracts `np.exp`. The luminance list is computed once from the
original image and reused by every sub-stage; each non-zero sub-stage
transforms the whole float image; a single clip-and-quantize closes the
stage (image_filters.py 60-104). Squares are written as self-products,
matching `np.power(x, 2)`. -/
def adjust_highlights_midtones_shadows (mexp : ℚ → ℚ) (h m s : ℚ) (img : Img) : Img :=
  let f0 := imgToF img
  let L := lumF f0
  let f1 := if h ≠ 0 then mulMask (h / 100) (L.map fun x => x * x) f0 else f0
  let f2 := if m ≠ 0 then
      mulMask (m / 100) (L.map fun x => mexp (-4 * ((x - 1/2) * (x - 1/2)))) f1
    else f1
  let f3 := if s ≠ 0 then addMask (s / 100) (L.map fun x => 1 - x) f2 else f2
  clipQuantF f3

/-- One channel of the highlights/midtones/shadows stage as a single
per-pixel function of the original luminance `L` and the channel value `v`,
without any intermediate clipping: the per-pixel reading of the staged
array code. -/
def hmsChan (mexp : ℚ → ℚ) (h m s L v : ℚ) : ℚ :=
  let v1 := if h ≠ 0 then v * (1 + h / 100 * (L * L)) else v
  let v2 := if m ≠ 0 then v1 * (1 + m / 100 * mexp (-4 * ((L - 1/2) * (L - 1/2)))) else v1
  if s ≠ 0 then v2 + s / 100 * (1 - L) else v2

/-- One channel of the highlights/midtones/shadows stage as the
specification words it: the value is clipped to `[0,1]` after each
sub-stage that was applied. Written from the spec, for comparison with
the source-embedded stage. -/
def hmsChanClipEach (mexp : ℚ → ℚ) (h m s L v : ℚ) : ℚ :=
  let v1 := if h ≠ 0 then clip01 (v * (1 + h / 100 * (L * L))) else v
  let v2 := if m ≠ 0 then clip01 (v1 * (1 + m / 100 * mexp (-4 * ((L - 1/2) * (L - 1/2))))) else v1
  if s ≠ 0 then clip01 (v2 + s / 100 * (1 - L)) else v2

/-- The highlights/midtones/shadows stage with per-sub-stage clipping, as
the specification describes it (followed by the same clip-and-quantize
output conversion). -/
def adjust_hms_clip_each_stage (mexp : ℚ → ℚ) (h m s : ℚ) : Img → Img
  | .gray vs => .gray (vs.map fun v =>
      quantByte (clip01 (hmsChanClipEach mexp h m s (toUnit v) (toUnit v))))
  | .rgb ps => .rgb (ps.map fun p =>
      let L := lum (toUnit p.1) (toUnit p.2.1) (toUnit p.2.2)
      (quantByte (clip01 (hmsChanClipEach mexp h m s L (toUnit p.1))),
       quantByte (clip01 (hmsChanClipEach mexp h m s L (toUnit p.2.1))),
       quantByte (clip01 (hmsChanClipEach mexp h m s L (toUnit p.2.2)))))

/-- Map a pure 8-bit-sample function over every channel of an image. -/
def mapBytes (f : ℕ → ℕ) : Img → Img
  | .gray vs => .gray (vs.map f)
  | .rgb ps => .rgb (ps.map fun p => (f p.1, f p.2.1, f p.2.2))

/-- Clamp an integer into the 8-bit range. -/
def clampByte (z : ℤ) : ℕ := (min 255 (max 0 z)).toNat

/-- Modelled from the spec: PIL `ImageEnhance.Brightness(image).enhance(factor)`,
whose body is library code not in this repository — "brightness multiplies
every sample by `1 + brightness/100`", followed by clipping quantization
(rounding to the nearest 8-bit value and clamping). -/
def pilBrightness (factor : ℚ) : Img → Img :=
  mapBytes fun v => clampByte ⌊factor * (v : ℚ) + 1/2⌋

/-- Embedding of `ImageFilters.adjust_brightness_contrast`. The contrast
enhancer body is PIL library code, abstracted as `contrastE`; the guards
and factors mirror image_filters.py 28-40. -/
def adjust_brightness_contrast (contrastE : Img → ℚ → Img) (b c : ℚ) (img : Img) : Img :=
  let i1 := if b ≠ 0 then pilBrightness (1 + b / 100) img else img
  if c ≠ 0 then contrastE i1 (1 + c / 100) else i1

/-- One sample of the exposure stage: normalize, multiply by `2^exposure`
(the power abstracted as `pow2exp`), clip, re-quantize. -/
def exposureByte (pow2exp : ℚ) (v : ℕ) : ℕ := quantByte (clip01 (toUnit v * pow2exp))

/-- Embedding of `ImageFilters.adjust_exposure` (image_filters.py 106-134);
`pow2` abstracts `np.power(2, exposure)`. -/
def adjust_exposure (pow2 : ℚ → ℚ) (e : ℚ) (img : Img) : Img :=
  if e = 0 then img else mapBytes (exposureByte (pow2 e)) img

/-- One sample of the levels stage: `clip((v - bp)/(wp - bp), 0, 1)`,
gamma-corrected by `v ^ (1/gamma)` when `gamma ≠ 1` (the power abstracted
as `rpow`), then re-quantized. -/
def levelsByte (rpow : ℚ → ℚ → ℚ) (bp wp : ℤ) (g : ℚ) (v : ℕ) : ℕ :=
  let x := clip01 (((v : ℚ) - (bp : ℚ)) / ((wp : ℚ) - (bp : ℚ)))
  quantByte (if g ≠ 1 then rpow x (1 / g) else x)

/-- Embedding of `ImageFilters.adjust_levels` (image_filters.py 157-188). -/
def adjust_levels (rpow : ℚ → ℚ → ℚ) (bp wp : ℤ) (g : ℚ) (img : Img) : Img :=
  mapBytes (levelsByte rpow bp wp g) img

/-- Embedding of `ImageFilters.adjust_saturation`: guard plus a PIL
`ImageEnhance.Color` enhancer, abstracted as `colorE`. -/
def adjust_saturation (colorE : Img → ℚ → Img) (s : ℚ) (img : Img) : Img :=
  if s = 0 then img else colorE img (1 + s / 100)

/-- Embedding of `ImageFilters.adjust_vibrance`: guard plus the cv2
HSV-roundtrip body, abstracted whole as `vibE` (it is driven by library
color conversions). -/
def adjust_vibrance (vibE : Img → ℚ → Img) (vb : ℚ) (img : Img) : Img :=
  if vb = 0 then img else vibE img vb

/-- Embedding of `ImageFilters.adjust_sharpness`: guard plus a PIL
`ImageEnhance.Sharpness` enhancer, abstracted as `sharpE`. -/
def adjust_sharpness (sharpE : Img → ℚ → Img) (s : ℚ) (img : Img) : Img :=
  if s = 0 then img else sharpE img (1 + s / 100)

/-- The transcendental and library-backed operations the pipeline relies
on, abstracted as parameters: `np.exp`, `np.power(2, ·)`,
`np.power(·, ·)`, and the PIL/cv2 enhancer bodies. -/
structure LibOps where
  qexp : ℚ → ℚ
  pow2 : ℚ → ℚ
  rpow : ℚ → ℚ → ℚ
  contrastE : Img → ℚ → Img
  colorE : Img → ℚ → Img
  vibE : Img → ℚ → Img
  sharpE : Img → ℚ → Img

/-- The twelve filter settings (src/src/app.py `get_default_filter_settings`
key set; black/white point are Python ints). -/
structure FilterSettings where
  brightness : ℚ
  contrast : ℚ
  highlights : ℚ
  midtones : ℚ
  shadows : ℚ
  exposure : ℚ
  saturation : ℚ
  vibrance : ℚ
  sharpness : ℚ
  black_point : ℤ
  white_point : ℤ
  gamma : ℚ
  deriving DecidableEq

/-- The neutral default settings (app.py 31-46). -/
def get_default_filter_settings : FilterSettings :=
  { brightness := 0, contrast := 0, highlights := 0, midtones := 0, shadows := 0,
    exposure := 0, saturation := 0, vibrance := 0, sharpness := 0,
    black_point := 0, white_point := 255, gamma := 1 }

/-- Embedding of `ImageFilters.apply_all_adjustments` (image_filters.py
283-349): the fixed stage order with the source's skip guards. -/
def apply_all_adjustments (lib : LibOps) (s : FilterSettings) (img : Img) : Img :=
  let r1 := if s.exposure ≠ 0 then adjust_exposure lib.pow2 s.exposure img else img
  let r2 := if s.black_point ≠ 0 ∨ s.white_point ≠ 255 ∨ s.gamma ≠ 1 then
      adjust_levels lib.rpow s.black_point s.white_point s.gamma r1
    else r1
  let r3 := if s.highlights ≠ 0 ∨ s.midtones ≠ 0 ∨ s.shadows ≠ 0 then
      adjust_highlights_midtones_shadows lib.qexp s.highlights s.midtones s.shadows r2
    else r2
  let r4 := if s.brightness ≠ 0 ∨ s.contrast ≠ 0 then
      adjust_brightness_contrast lib.contrastE s.brightness s.contrast r3
    else r3
  let r5 := if s.saturation ≠ 0 then adjust_saturation lib.colorE s.saturation r4 else r4
  let r6 := if s.vibrance ≠ 0 then adjust_vibrance lib.vibE s.vibrance r5 else r5
  if s.sharpness ≠ 0 then adjust_sharpness lib.sharpE s.sharpness r6 else r6

/- ### Auto-enhance estimator (src/src/app.py 473-498 and 541-581) -/

/-- Round a rational to the nearest integer (half away from zero is
irrelevant at the weights used), as cv2's fixed-point grayscale
conversion does. -/
def roundQ (x : ℚ) : ℤ := ⌊x + 1/2⌋

/-- Grayscale analysis image: `cv2.cvtColor(arr, cv2.COLOR_RGB2GRAY)`
(the same `0.299/0.587/0.114` weights, rounded to 8 bits) for RGB input,
the raw array for single-channel input (app.py 476-480). -/
def cvGray : Img → List ℕ
  | .gray vs => vs
  | .rgb ps => ps.map fun p =>
      (roundQ (299/1000 * (p.1 : ℚ) + 587/1000 * (p.2.1 : ℚ) + 114/1000 * (p.2.2 : ℚ))).toNat

/-- Embedding of `np.percentile(xs, q)` with the default linear
interpolation: virtual position `q/100 * (n-1)` into the sorted data,
interpolating between the two neighbouring order statistics. -/
def npPercentile (q : ℚ) (xs : List ℕ) : ℚ :=
  let s := xs.insertionSort (· ≤ ·)
  let pos := q * ((s.length : ℚ) - 1) / 100
  let i := ⌊pos⌋.toNat
  let lo := (s.getD i 0 : ℚ)
  let hi := (s.getD (i + 1) (s.getD i 0) : ℚ)
  lo + (pos - (i : ℚ)) * (hi - lo)

/-- Embedding of the per-page auto-enhance estimator of the
"Auto Enhance All Pages" button (app.py 482-498): fresh default settings,
then either a levels correction (5th/95th percentile based) or a subtle
contrast/brightness boost. `int(...)` truncates the non-negative
percentile, i.e. takes its floor. -/
def autoEnhancePageSettings (img : Img) : FilterSettings :=
  let g := cvGray img
  let black_point := ⌊npPercentile 5 g⌋
  let white_point := ⌊npPercentile 95 g⌋
  if 20 < black_point ∨ white_point < 235 then
    { get_default_filter_settings with
        black_point := min black_point 50,
        white_point := max white_point 205,
        contrast := 5 }
  else
    { get_default_filter_settings with contrast := 3, brightness := 2 }

/-- Embedding of the current-page "Auto Enhance" button (app.py 554-578):
the same analysis, but updating the given base settings in place. -/
def autoEnhanceCurrentSettings (base : FilterSettings) (img : Img) : FilterSettings :=
  let g := cvGray img
  let black_point := ⌊npPercentile 5 g⌋
  let white_point := ⌊npPercentile 95 g⌋
  if 20 < black_point ∨ white_point < 235 then
    { base with
        black_point := min black_point 50,
        white_point := max white_point 205,
        contrast := 5 }
  else
    { base with contrast := 3, brightness := 2 }

/- ### Exact-size padding (src/core/image_filters.py 351-399 and
src/src/app.py 71-116) -/

/-- PIL image modes relevant here, with their channel counts. -/
inductive PMode where
  | grayMode
  | rgbMode
  | rgbaMode
  deriving DecidableEq

/-- Channel count of a mode. -/
def PMode.channels : PMode → ℕ
  | .grayMode => 1
  | .rgbMode => 3
  | .rgbaMode => 4

/-- A PIL image as the padding code sees it: dimensions, mode, and an RGB
view of pixel `(x, y)` (top-left origin). -/
structure PImg where
  width : ℕ
  height : ℕ
  mode : PMode
  pix : ℕ → ℕ → ℕ × ℕ × ℕ

/-- White, the padding background color. -/
def whitePix : ℕ × ℕ × ℕ := (255, 255, 255)

/-- A white RGB canvas of size `fw x fh` with the image pasted at
horizontal offset `xOff` and vertical offset 0 (`Image.new('RGB', ...,
(255,255,255))` followed by `padded.paste(image, (x_offset, 0))`). -/
def padCanvas (img : PImg) (fw fh xOff : ℕ) : PImg :=
  { width := fw, height := fh, mode := .rgbMode,
    pix := fun x y =>
      if xOff ≤ x ∧ x < xOff + img.width ∧ y < img.height then
        img.pix (x - xOff) y
      else whitePix }

/-- Embedding of `ImageFilters.add_padding_for_exact_size` (the core
version with a `first_odd_page` parameter): return the image unchanged
when no padding is needed, else paste onto the white canvas at the
computed offset. `%` is Python's `(page_num - first_odd_page) % 2`,
i.e. `Int.emod` with a non-negative result. -/
def add_padding_for_exact_size (img : PImg) (target_width target_height : ℕ)
    (page_num first_odd_page : ℤ) : PImg :=
  let needsW := img.width < target_width
  let needsH := img.height < target_height
  if ¬needsW ∧ ¬needsH then img
  else
    let fw := max img.width target_width
    let fh := max img.height target_height
    let xOff : ℕ :=
      if needsW then
        if (page_num - first_odd_page) % 2 = 0 then 0 else fw - img.width
      else (fw - img.width) / 2
    padCanvas img fw fh xOff

/-- Embedding of the app.py variant of `add_padding_for_exact_size`
(no `first_odd_page` parameter; odd page numbers align left). -/
def add_padding_for_exact_size_app (img : PImg) (target_width target_height : ℕ)
    (page_num : ℤ) : PImg :=
  let needsW := img.width < target_width
  let needsH := img.height < target_height
  if ¬needsW ∧ ¬needsH then img
  else
    let fw := max img.width target_width
    let fh := max img.height target_height
    let xOff : ℕ :=
      if needsW then
        if page_num % 2 = 1 then 0 else fw - img.width
      else (fw - img.width) / 2
    padCanvas img fw fh xOff

/- ### PDF page access (src/core/pdf_processor.py) -/

/-- A loaded PDF document: its page count, the per-page media box in
points, and the rasterizer output per (page, dpi). -/
structure PDFDoc where
  pageCount : ℕ
  pageRect : ℕ → ℚ × ℚ
  render : ℕ → ℕ → Img

/-- PyMuPDF `doc[page_num]` (`Document.load_page`): negative indices count
back from the end, Python style; an index still out of range raises.
Library behaviour, modelled from the PyMuPDF documentation since the
library is not part of this repository. -/
def fitzLoadPage (count : ℕ) (n : ℤ) : Except String ℕ :=
  let n1 := if n < 0 then n + count else n
  if 0 ≤ n1 ∧ n1 < count then .ok n1.toNat else .error "page not in document"

/-- Assoc-list lookup with decidable key equality (first match), the
Python dict read. -/
def dictLookup {K V : Type} [DecidableEq K] : List (K × V) → K → Option V
  | [], _ => none
  | (k0, v0) :: t, k => if k0 = k then some v0 else dictLookup t k

/-- Embedding of `PDFProcessor.get_page_as_image` (pdf_processor.py
26-69): serve from the per-document image cache when present, otherwise
range-check the 0-based index, raise `ValueError` when out of `[0,
pageCount)`, and rasterize otherwise. Rendering details are `doc.render`. -/
def get_page_as_image (doc : PDFDoc) (cache : List ((ℤ × ℕ) × Img))
    (page_num : ℤ) (dpi : ℕ) : Except String Img :=
  match dictLookup cache (page_num, dpi) with
  | some im => .ok im
  | none =>
    if page_num < 0 ∨ (doc.pageCount : ℤ) ≤ page_num then
      .error "page number out of range"
    else .ok (doc.render page_num.toNat dpi)

/-- Embedding of `PDFProcessor.get_page_dimensions` (pdf_processor.py
82-93): no range check of its own; `self.doc[page_num]` is the library
indexing, whose rect is returned. -/
def get_page_dimensions (doc : PDFDoc) (page_num : ℤ) : Except String (ℚ × ℚ) :=
  (fitzLoadPage doc.pageCount page_num).map doc.pageRect

/- ### Caches (src/core/cache_manager.py) -/

/-- Python dict assignment `d[k] = v`: update in place when the key is
present (keeping its position in insertion order), append otherwise. -/
def dictInsert {K V : Type} [DecidableEq K] : List (K × V) → K → V → List (K × V)
  | [], k, v => [(k, v)]
  | (k0, v0) :: t, k, v => if k0 = k then (k, v) :: t else (k0, v0) :: dictInsert t k v

/-- Python `del d[k]`: drop the (unique) binding of `k`. -/
def dictErase {K V : Type} [DecidableEq K] : List (K × V) → K → List (K × V)
  | [], _ => []
  | (k0, v0) :: t, k => if k0 = k then t else (k0, v0) :: dictErase t k

/-- The keys of a dict in insertion order. -/
def dictKeys {K V : Type} (c : List (K × V)) : List K := c.map Prod.fst

/-- The render cache: the `_render_cache` dict plus the evictions
counter it feeds. -/
structure RenderCache (K V : Type) where
  entries : List (K × V)
  evictions : ℕ

/-- Embedding of `CacheManager.set_rendered_page` (cache_manager.py
63-75): when the dict currently holds more than 200 entries, delete the
first 50 keys in insertion order (counting each as an eviction), then
insert. -/
def set_rendered_page {K V : Type} [DecidableEq K]
    (c : RenderCache K V) (k : K) (v : V) : RenderCache K V :=
  if 200 < c.entries.length then
    { entries := dictInsert (c.entries.drop 50) k v, evictions := c.evictions + 50 }
  else
    { entries := dictInsert c.entries k v, evictions := c.evictions }

/-- Insert a batch of rendered pages (all with value `v`) into an empty
render cache, in order. -/
def renderInsertAll {K V : Type} [DecidableEq K] (ks : List K) (v : V) : RenderCache K V :=
  ks.foldl (fun c k => set_rendered_page c k v) ⟨[], 0⟩

/-- The `LRUCache` state: the `_cache` dict (insertion order) and the
`_access_order` list (least recently used first). -/
structure LRUState (K V : Type) where
  cache : List (K × V)
  order : List K

/-- The empty LRU cache. -/
def lruEmpty {K V : Type} : LRUState K V := ⟨[], []⟩

/-- Embedding of `LRUCache.get` (cache_manager.py 147-154): on a hit,
move the key to the most-recently-used end of the access order and return
the value; state is unchanged on a miss. -/
def lruGet {K V : Type} [DecidableEq K] (s : LRUState K V) (k : K) :
    Option V × LRUState K V :=
  match dictLookup s.cache k with
  | some v => (some v, { cache := s.cache, order := s.order.erase k ++ [k] })
  | none => (none, s)

/-- Embedding of `LRUCache.set` (cache_manager.py 156-167): refresh the
access order for an existing key; otherwise, at capacity, pop the least
recently used key and delete its entry before inserting. The source pops
`_access_order[0]` unconditionally there; the dict and the order list
always hold the same keys, so the order list is non-empty in that branch
— the embedding inserts without eviction in the unreachable empty case. -/
def lruSet {K V : Type} [DecidableEq K] (maxsize : ℕ) (s : LRUState K V)
    (k : K) (v : V) : LRUState K V :=
  if (dictLookup s.cache k).isSome then
    { cache := dictInsert s.cache k v, order := s.order.erase k ++ [k] }
  else if maxsize ≤ s.cache.length then
    match s.order with
    | [] => { cache := dictInsert s.cache k v, order := [k] }
    | lru :: rest => { cache := dictInsert (dictErase s.cache lru) k v, order := rest ++ [k] }
  else
    { cache := dictInsert s.cache k v, order := s.order ++ [k] }

/-- Embedding of `LRUCache.clear_pdf`: the source deletes every key
matching the document (a string test `k.startswith(pdf_id + ":")`,
abstracted as the predicate `p`) from the dict and from the access order;
since each key occurs once in both, that is a filter. -/
def lruClearPdf {K V : Type} (p : K → Bool) (s : LRUState K V) : LRUState K V :=
  { cache := s.cache.filter fun kv => !(p kv.1), order := s.order.filter fun k => !(p k) }

/-- One client-visible operation on the LRU cache. -/
inductive LRUOp (K V : Type) where
  | get : K → LRUOp K V
  | set : K → V → LRUOp K V
  | clearPdf : (K → Bool) → LRUOp K V
  | clear : LRUOp K V

/-- Apply one operation to the LRU state (`get` for its state effect). -/
def lruStep {K V : Type} [DecidableEq K] (maxsize : ℕ) (s : LRUState K V) :
    LRUOp K V → LRUState K V
  | .get k => (lruGet s k).2
  | .set k v => lruSet maxsize s k v
  | .clearPdf p => lruClearPdf p s
  | .clear => lruEmpty

/-- Run a sequence of operations from the empty cache. -/
def lruRun {K V : Type} [DecidableEq K] (maxsize : ℕ) (ops : List (LRUOp K V)) :
    LRUState K V :=
  ops.foldl (lruStep maxsize) lruEmpty

/-- The dict/order synchronization invariant of `LRUCache`: the access
order holds exactly the dict's keys, each once. -/
def LRUInv {K V : Type} (s : LRUState K V) : Prop :=
  s.order.Perm (dictKeys s.cache) ∧ s.order.Nodup

/-- The horizontal offset the padding claim predicts: when width padding
is needed, left-aligned (offset 0) exactly when
`(pageNumber - firstOddPage) mod 2 = 0` and right-aligned otherwise;
centered when no width padding is needed. -/
def claimXOff (img : PImg) (tw : ℕ) (p f : ℤ) : ℕ :=
  if img.width < tw then
    if (p - f) % 2 = 0 then 0 else max img.width tw - img.width
  else (max img.width tw - img.width) / 2

/-- A concrete 2x2 grayscale image (used to witness the padding claims). -/
def padImgGray : PImg :=
  { width := 2, height := 2, mode := .grayMode, pix := fun x y => (x + y, 0, 0) }

/-- A concrete 2x2 RGBA image (used to witness the channel claim). -/
def padImgRgba : PImg :=
  { width := 2, height := 2, mode := .rgbaMode, pix := fun x y => (x, y, 0) }

/-- A concrete one-page document whose page is 612x792 points. -/
def pdfDocOne : PDFDoc :=
  { pageCount := 1, pageRect := fun _ => (612, 792), render := fun _ _ => Img.gray [] }

/-- Indexing into a concatenation of blocks of length four. -/
lemma flatten_getD_of_len4 (L : List (List (Option ℕ))) (h4 : ∀ l ∈ L, l.length = 4)
    (i j : ℕ) (hi : i < L.length) (hj : j < 4) :
    L.flatten.getD (4 * i + j) none = (L.getD i []).getD j none := by
  induction L generalizing i with
  | nil => simp at hi
  | cons a t ih =>
    have ha : a.length = 4 := h4 a (List.mem_cons_self a t)
    cases i with
    | zero =>
      simp only [List.flatten_cons, Nat.mul_zero, Nat.zero_add]
      rw [List.getD_append _ _ _ _ (by omega)]
      simp
    | succ i =>
      simp only [List.flatten_cons]
      rw [List.getD_append_right _ _ _ _ (by omega)]
      have hidx : 4 * (i + 1) + j - a.length = 4 * i + j := by omega
      rw [hidx]
      have := ih (fun l hl => h4 l (List.mem_cons_of_mem a hl)) i (by simpa using hi)
      simpa using this

/-- The slot at flat position `4*i + j` of the arrangement is slot `j` of
sheet `i`. -/
lemma arrange_slot (n i j : ℕ) (hi : i < (n + 3) / 4) (hj : j < 4) :
    (arrange_pages_cut_and_stack n).getD (4 * i + j) none
      = (cutStackSheet n ((n + 3) / 4) i).getD j none := by
  unfold arrange_pages_cut_and_stack
  rw [flatten_getD_of_len4 _ ?_ i j (by simpa using hi) hj]
  · congr 1
    rw [List.getD_eq_getElem _ _ (by simpa using hi)]
    simp
  · intro l hl
    simp only [List.mem_map] at hl
    obtain ⟨a, _, rfl⟩ := hl
    rfl

/-- The arrangement always has `4 * ceil(n/4)` slots. -/
lemma arrange_length (n : ℕ) :
    (arrange_pages_cut_and_stack n).length = 4 * ((n + 3) / 4) := by
  unfold arrange_pages_cut_and_stack
  simp only [List.length_flatten, List.map_map]
  have h : List.length ∘ cutStackSheet n ((n + 3) / 4) = fun _ => 4 := by
    funext i
    rfl
  rw [h, List.map_const', List.sum_replicate, smul_eq_mul, List.length_range, mul_comm]

/-- C1: for every page count `n ≥ 1`, `arrangeCutAndStack(n)` produces
`4 * ceil(n/4)` slots; for each sheet `i` the four slots are
`2i+1`, `2*sheets+2i+1`, `2*sheets+2i+2`, `2i+2` (1-indexed), any value
exceeding `n` replaced by blank; and the three concrete examples from the
specification hold. -/
theorem arrange_cut_and_stack_spec (n : ℕ) (_hn : 1 ≤ n) :
    (arrange_pages_cut_and_stack n).length = 4 * ((n + 3) / 4) ∧
    (∀ i, i < (n + 3) / 4 →
      ((arrange_pages_cut_and_stack n).getD (4 * i) none
          = if 2 * i + 1 ≤ n then some (2 * i + 1) else none) ∧
      ((arrange_pages_cut_and_stack n).getD (4 * i + 1) none
          = if 2 * ((n + 3) / 4) + 2 * i + 1 ≤ n then
              some (2 * ((n + 3) / 4) + 2 * i + 1) else none) ∧
      ((arrange_pages_cut_and_stack n).getD (4 * i + 2) none
          = if 2 * ((n + 3) / 4) + 2 * i + 2 ≤ n then
              some (2 * ((n + 3) / 4) + 2 * i + 2) else none) ∧
      ((arrange_pages_cut_and_stack n).getD (4 * i + 3) none
          = if 2 * i + 2 ≤ n then some (2 * i + 2) else none)) ∧
    arrange_pages_cut_and_stack 8
      = [some 1, some 5, some 6, some 2, some 3, some 7, some 8, some 4] ∧
    (arrange_pages_cut_and_stack 5).length = 8 ∧
    (arrange_pages_cut_and_stack 5).count none = 3 ∧
    List.Perm ((arrange_pages_cut_and_stack 5).filterMap id) [1, 2, 3, 4, 5] ∧
    (arrange_pages_cut_and_stack 12).length = 12 ∧
    (arrange_pages_cut_and_stack 12).count none = 0 := by
  refine ⟨arrange_length n, fun i hi => ⟨?_, ?_, ?_, ?_⟩,
    by decide, by decide, by decide, by decide, by decide, by decide⟩
  · have h := arrange_slot n i 0 hi (by omega)
    simpa [cutStackSheet] using h
  · have h := arrange_slot n i 1 hi (by omega)
    simpa [cutStackSheet] using h
  · have h := arrange_slot n i 2 hi (by omega)
    simpa [cutStackSheet] using h
  · have h := arrange_slot n i 3 hi (by omega)
    simpa [cutStackSheet] using h

/-- Witness for C1 at `n = 8`, sheet 0: the first slot holds page 1. -/
theorem arrange_cut_and_stack_spec_witness :
    (arrange_pages_cut_and_stack 8).getD 0 none = some 1 := by
  have h := ((arrange_cut_and_stack_spec 8 (by decide)).2.1 0 (by decide)).1
  simpa using h

/-- C4: applying the full adjustment pipeline with the neutral default
settings (all adjustments zero, black point 0, white point 255, gamma 1)
returns the image unchanged — every stage is skipped, whatever the
library-backed enhancer bodies would do. -/
theorem apply_all_adjustments_default_identity (lib : LibOps) (img : Img) :
    apply_all_adjustments lib get_default_filter_settings img = img := rfl

/-- The samples of a byte-mapped image are the mapped samples. -/
lemma samples_mapBytes (f : ℕ → ℕ) (img : Img) :
    (mapBytes f img).samples = img.samples.map f := by
  cases img with
  | gray vs => simp [mapBytes, Img.samples]
  | rgb ps =>
    simp only [mapBytes, Img.samples]
    induction ps with
    | nil => simp
    | cons p t ih => simp [ih]

/-- A brightness-scaled sample that is not saturated is at least the
input sample. -/
lemma brightness_byte_ge (factor : ℚ) (hf : 1 ≤ factor) (v : ℕ)
    (hlt : clampByte ⌊factor * (v : ℚ) + 1/2⌋ < 255) :
    v ≤ clampByte ⌊factor * (v : ℚ) + 1/2⌋ := by
  have hv : (0 : ℚ) ≤ (v : ℚ) := Nat.cast_nonneg v
  have hq : ((v : ℤ) : ℚ) ≤ factor * (v : ℚ) + 1/2 := by
    push_cast
    nlinarith
  have hz : (v : ℤ) ≤ ⌊factor * (v : ℚ) + 1/2⌋ := Int.le_floor.mpr hq
  unfold clampByte at hlt ⊢
  omega

/-- C9: for `brightness > 0` and all other settings neutral, the
brightness adjustment preserves the sample count and every non-saturated
output sample is at least the corresponding input sample (brightness
being multiplication of every sample by `1 + brightness/100` followed by
clipping quantization). -/
theorem brightness_monotone (contrastE : Img → ℚ → Img) (b : ℚ) (img : Img)
    (hb : 0 < b) :
    (adjust_brightness_contrast contrastE b 0 img).samples.length
        = img.samples.length ∧
    ∀ i, (adjust_brightness_contrast contrastE b 0 img).samples.getD i 0 < 255 →
      img.samples.getD i 0
        ≤ (adjust_brightness_contrast contrastE b 0 img).samples.getD i 0 := by
  have hb0 : b ≠ 0 := ne_of_gt hb
  have hres : adjust_brightness_contrast contrastE b 0 img
      = pilBrightness (1 + b / 100) img := by
    simp [adjust_brightness_contrast, hb0]
  rw [hres]
  have hsamp : (pilBrightness (1 + b / 100) img).samples
      = img.samples.map fun (v : ℕ) => clampByte ⌊(1 + b / 100) * (v : ℚ) + 1/2⌋ :=
    samples_mapBytes _ img
  rw [hsamp]
  refine ⟨List.length_map _ _, fun i hi => ?_⟩
  rcases lt_or_ge i img.samples.length with hlen | hlen
  · rw [List.getD_eq_getElem _ _ (by simpa using hlen)] at hi ⊢
    rw [List.getD_eq_getElem _ _ (by simpa using hlen)]
    rw [List.getElem_map] at hi ⊢
    exact brightness_byte_ge _ (by linarith) _ hi
  · rw [List.getD_eq_default _ _ hlen]
    exact Nat.zero_le _

/-- Witness for C9: brightness 10 on a one-pixel gray image lifts sample
100 to at least 100. -/
theorem brightness_monotone_witness :
    (Img.gray [100]).samples.getD 0 0
      ≤ (adjust_brightness_contrast (fun i _ => i) 10 0 (Img.gray [100])).samples.getD 0 0 :=
  (brightness_monotone (fun i _ => i) 10 (Img.gray [100]) (by norm_num)).2 0 (by
    norm_num [adjust_brightness_contrast, pilBrightness, mapBytes, Img.samples, clampByte])

/-- Zipping two mapped copies of the same list is a single map. -/
lemma zipWith_map_same {α β γ δ : Type} (f : β → γ → δ) (g : α → β) (h : α → γ)
    (l : List α) :
    List.zipWith f (l.map g) (l.map h) = l.map fun x => f (g x) (h x) := by
  induction l with
  | nil => rfl
  | cons a t ih => simp [ih]

/-- C3 (amended): the highlights/midtones/shadows stage acts per pixel:
luminance is `0.299R + 0.587G + 0.114B` (the raw sample when
single-channel), highlights multiplies each channel by
`1 + (highlights/100)·L²`, midtones by `1 + (midtones/100)·exp(-4(L-0.5)²)`,
shadows adds `(shadows/100)·(1-L)` (additive), and the result is clipped to
`[0,1]` once, after all applied sub-stages, before re-quantization. -/
theorem hms_per_pixel (mexp : ℚ → ℚ) (h m s : ℚ) :
    (∀ vs : List ℕ,
      adjust_highlights_midtones_shadows mexp h m s (Img.gray vs)
        = Img.gray (vs.map fun v =>
            quantByte (clip01 (hmsChan mexp h m s (toUnit v) (toUnit v))))) ∧
    (∀ ps : List (ℕ × ℕ × ℕ),
      adjust_highlights_midtones_shadows mexp h m s (Img.rgb ps)
        = Img.rgb (ps.map fun p =>
            (quantByte (clip01 (hmsChan mexp h m s
                (lum (toUnit p.1) (toUnit p.2.1) (toUnit p.2.2)) (toUnit p.1))),
             quantByte (clip01 (hmsChan mexp h m s
                (lum (toUnit p.1) (toUnit p.2.1) (toUnit p.2.2)) (toUnit p.2.1))),
             quantByte (clip01 (hmsChan mexp h m s
                (lum (toUnit p.1) (toUnit p.2.1) (toUnit p.2.2)) (toUnit p.2.2)))))) := by
  constructor
  · intro vs
    by_cases hh : h = 0 <;> by_cases hm : m = 0 <;> by_cases hs : s = 0 <;>
      simp [adjust_highlights_midtones_shadows, imgToF, lumF, mulMask, addMask,
        clipQuantF, hmsChan, hh, hm, hs, zipWith_map_same, List.map_map, Function.comp]
  · intro ps
    by_cases hh : h = 0 <;> by_cases hm : m = 0 <;> by_cases hs : s = 0 <;>
      simp [adjust_highlights_midtones_shadows, imgToF, lumF, mulMask, addMask,
        clipQuantF, hmsChan, hh, hm, hs, zipWith_map_same, List.map_map, Function.comp]

/-- Counterexample to C3 as stated: on the one-pixel gray image `[204]`
with `highlights = 100`, `midtones = 0`, `shadows = -100`, the source
stage (which clips once at the end) yields 255, while clipping after each
applied sub-stage — as the claim demands — would yield 204. -/
theorem hms_clip_each_counterexample :
    adjust_highlights_midtones_shadows (fun _ => 1) 100 0 (-100) (Img.gray [204])
        = Img.gray [255] ∧
    adjust_hms_clip_each_stage (fun _ => 1) 100 0 (-100) (Img.gray [204])
        = Img.gray [204] := by
  constructor
  · norm_num [adjust_highlights_midtones_shadows, imgToF, lumF, mulMask, addMask,
      clipQuantF, toUnit, quantByte, clip01, min_def, max_def]
    decide
  · norm_num [adjust_hms_clip_each_stage, hmsChanClipEach, toUnit, quantByte,
      clip01, min_def, max_def]
    decide

/-- Counterexample to C6 as stated: the current-page auto-enhance (app.py
554-578, one of the two code paths the claim covers) updates the session's
existing settings in place. Starting from a base whose saturation is 7
(not the neutral default), on the all-dark one-pixel image (`p5 = p95 = 0`
so the levels branch fires) the returned settings keep saturation = 7 —
not "all other fields at the neutral default" as the claim demands. -/
theorem auto_enhance_nondefault_base_counterexample :
    (autoEnhanceCurrentSettings { get_default_filter_settings with saturation := 7 }
        (Img.gray [0])).saturation = 7 ∧
    (autoEnhanceCurrentSettings { get_default_filter_settings with saturation := 7 }
        (Img.gray [0])).contrast = 5 ∧
    get_default_filter_settings.saturation = 0 := by
  have hcond : 20 < ⌊npPercentile 5 (cvGray (Img.gray [0]))⌋ ∨
      ⌊npPercentile 95 (cvGray (Img.gray [0]))⌋ < 235 :=
    Or.inr (by norm_num [npPercentile, cvGray, List.insertionSort, List.orderedInsert])
  refine ⟨?_, ?_, rfl⟩
  · unfold autoEnhanceCurrentSettings
    rw [if_pos hcond]
  · unfold autoEnhanceCurrentSettings
    rw [if_pos hcond]

/-- C6 (amended): the analysis computes `p5`/`p95` as the floors of the
5th/95th grayscale percentiles and branches on `p5 > 20 ∨ p95 < 235`.
The all-pages estimator starts from fresh default settings: in the levels
branch it returns `black_point = min(p5, 50)`, `white_point = max(p95,
205)`, `contrast = 5` with every other field at the neutral default;
otherwise `contrast = 3`, `brightness = 2` and all else default. The
current-page variant performs the same assignments but on the session's
existing settings, so unassigned fields keep their current values (the
neutral default only when the base is the default). The estimator from
defaults always satisfies `black_point ≤ 50` and `white_point ≥ 205`, and
identical images produce identical settings. -/
theorem auto_enhance_estimator_spec :
    (∀ img : Img,
      (20 < ⌊npPercentile 5 (cvGray img)⌋ ∨ ⌊npPercentile 95 (cvGray img)⌋ < 235 →
        autoEnhancePageSettings img
          = { get_default_filter_settings with
                black_point := min ⌊npPercentile 5 (cvGray img)⌋ 50,
                white_point := max ⌊npPercentile 95 (cvGray img)⌋ 205,
                contrast := 5 }) ∧
      (¬(20 < ⌊npPercentile 5 (cvGray img)⌋ ∨ ⌊npPercentile 95 (cvGray img)⌋ < 235) →
        autoEnhancePageSettings img
          = { get_default_filter_settings with contrast := 3, brightness := 2 })) ∧
    (∀ (base : FilterSettings) (img : Img),
      (20 < ⌊npPercentile 5 (cvGray img)⌋ ∨ ⌊npPercentile 95 (cvGray img)⌋ < 235 →
        autoEnhanceCurrentSettings base img
          = { base with
                black_point := min ⌊npPercentile 5 (cvGray img)⌋ 50,
                white_point := max ⌊npPercentile 95 (cvGray img)⌋ 205,
                contrast := 5 }) ∧
      (¬(20 < ⌊npPercentile 5 (cvGray img)⌋ ∨ ⌊npPercentile 95 (cvGray img)⌋ < 235) →
        autoEnhanceCurrentSettings base img
          = { base with contrast := 3, brightness := 2 })) ∧
    (∀ img : Img,
      (autoEnhancePageSettings img).black_point ≤ 50 ∧
      205 ≤ (autoEnhancePageSettings img).white_point) ∧
    (∀ img1 img2 : Img, img1 = img2 →
      autoEnhancePageSettings img1 = autoEnhancePageSettings img2) := by
  refine ⟨fun img => ⟨fun hc => ?_, fun hc => ?_⟩,
    fun base img => ⟨fun hc => ?_, fun hc => ?_⟩, fun img => ?_,
    fun img1 img2 hh => by rw [hh]⟩
  · unfold autoEnhancePageSettings
    rw [if_pos hc]
  · unfold autoEnhancePageSettings
    rw [if_neg hc]
  · unfold autoEnhanceCurrentSettings
    rw [if_pos hc]
  · unfold autoEnhanceCurrentSettings
    rw [if_neg hc]
  · unfold autoEnhancePageSettings
    by_cases hc : 20 < ⌊npPercentile 5 (cvGray img)⌋ ∨ ⌊npPercentile 95 (cvGray img)⌋ < 235
    · rw [if_pos hc]
      exact ⟨min_le_right _ _, le_max_right _ _⟩
    · rw [if_neg hc]
      refine ⟨?_, ?_⟩ <;> norm_num [get_default_filter_settings]

/-- Witness for C6 (amended): the all-dark one-pixel image takes the
levels branch of the all-pages estimator. -/
theorem auto_enhance_estimator_spec_witness :
    autoEnhancePageSettings (Img.gray [0])
      = { get_default_filter_settings with
            black_point := min ⌊npPercentile 5 (cvGray (Img.gray [0]))⌋ 50,
            white_point := max ⌊npPercentile 95 (cvGray (Img.gray [0]))⌋ 205,
            contrast := 5 } :=
  (auto_enhance_estimator_spec.1 (Img.gray [0])).1
    (Or.inr (by norm_num [npPercentile, cvGray, List.insertionSort, List.orderedInsert]))

/-- C7: padding returns the image unchanged when it meets both target
dimensions; otherwise it produces the max-dimension canvas with the image
pasted at vertical offset 0 and at the claimed horizontal offset
(left/right alternation by `(pageNumber - firstOddPage) mod 2` when width
padding is needed, centered otherwise), white elsewhere; and the app.py
variant coincides with the core variant at `firstOddPage = 1`. -/
theorem add_padding_spec (img : PImg) (tw th : ℕ) (p f : ℤ) :
    (tw ≤ img.width → th ≤ img.height →
      add_padding_for_exact_size img tw th p f = img) ∧
    (img.width < tw ∨ img.height < th →
      (add_padding_for_exact_size img tw th p f).width = max img.width tw ∧
      (add_padding_for_exact_size img tw th p f).height = max img.height th ∧
      (∀ a b, a < img.width → b < img.height →
        (add_padding_for_exact_size img tw th p f).pix (claimXOff img tw p f + a) b
          = img.pix a b) ∧
      (∀ x y,
        x < claimXOff img tw p f ∨ claimXOff img tw p f + img.width ≤ x ∨ img.height ≤ y →
        (add_padding_for_exact_size img tw th p f).pix x y = whitePix)) ∧
    (∀ q : ℤ,
      add_padding_for_exact_size_app img tw th q
        = add_padding_for_exact_size img tw th q 1) := by
  refine ⟨fun h1 h2 => ?_, fun hpad => ?_, fun q => ?_⟩
  · unfold add_padding_for_exact_size
    exact if_pos ⟨not_lt.mpr h1, not_lt.mpr h2⟩
  · have hcond : ¬(¬img.width < tw ∧ ¬img.height < th) := by tauto
    have hres : add_padding_for_exact_size img tw th p f
        = padCanvas img (max img.width tw) (max img.height th) (claimXOff img tw p f) := by
      unfold add_padding_for_exact_size claimXOff
      rw [if_neg hcond]
    rw [hres]
    refine ⟨rfl, rfl, fun a b ha hb => ?_, fun x y hxy => ?_⟩
    · unfold padCanvas
      dsimp only
      rw [if_pos ⟨Nat.le_add_right _ _, by omega, hb⟩]
      congr 1
      omega
    · unfold padCanvas
      dsimp only
      rw [if_neg (show ¬(claimXOff img tw p f ≤ x ∧ x < claimXOff img tw p f + img.width ∧
        y < img.height) by omega)]
  · unfold add_padding_for_exact_size_app add_padding_for_exact_size
    by_cases hno : ¬img.width < tw ∧ ¬img.height < th
    · rw [if_pos hno, if_pos hno]
    · rw [if_neg hno, if_neg hno]
      dsimp only
      congr 1
      exact if_congr Iff.rfl (if_congr (by omega) rfl rfl) rfl

/-- Witness for C7: a 2x2 gray image padded to width 4 on page 1 (first
odd page 1) is pasted left-aligned: pixel (1,1) of the result is pixel
(1,1) of the image. -/
theorem add_padding_spec_witness :
    (add_padding_for_exact_size padImgGray 4 2 1 1).pix (claimXOff padImgGray 4 1 1 + 1) 1
      = padImgGray.pix 1 1 :=
  ((add_padding_spec padImgGray 4 2 1 1).2.1 (Or.inl (by decide))).2.2.1 1 1
    (by decide) (by decide)

/-- C10: whenever padding actually happens the result has exactly 3 color
channels (RGB mode) regardless of the input mode, while an input needing
no padding is returned with its original mode. -/
theorem add_padding_channel_spec (img : PImg) (tw th : ℕ) (p f : ℤ) :
    (img.width < tw ∨ img.height < th →
      ((add_padding_for_exact_size img tw th p f).mode).channels = 3) ∧
    (tw ≤ img.width → th ≤ img.height →
      (add_padding_for_exact_size img tw th p f).mode = img.mode) := by
  constructor
  · intro hpad
    have hcond : ¬(¬img.width < tw ∧ ¬img.height < th) := by tauto
    unfold add_padding_for_exact_size
    rw [if_neg hcond]
    rfl
  · intro h1 h2
    unfold add_padding_for_exact_size
    rw [if_pos ⟨not_lt.mpr h1, not_lt.mpr h2⟩]

/-- Witness for C10: a padded 4-channel (RGBA) image comes back with 3
channels. -/
theorem add_padding_channel_spec_witness :
    ((add_padding_for_exact_size padImgRgba 4 2 1 1).mode).channels = 3 :=
  (add_padding_channel_spec padImgRgba 4 2 1 1).1 (Or.inl (by decide))

/-- A successful dict lookup means the key is present. -/
lemma mem_of_dictLookup_eq_some {K V : Type} [DecidableEq K]
    {c : List (K × V)} {k : K} {v : V} (h : dictLookup c k = some v) :
    k ∈ dictKeys c := by
  induction c with
  | nil => simp [dictLookup] at h
  | cons kv t ih =>
    obtain ⟨k0, v0⟩ := kv
    rw [dictLookup] at h
    by_cases hk : k0 = k
    · subst hk
      exact List.mem_cons_self _ _
    · rw [if_neg hk] at h
      exact List.mem_cons_of_mem _ (ih h)

/-- C8 (amended): rendering a page checks the 0-based index itself and
fails for every index outside `[0, pageCount)` (given the render cache
only holds in-range pages, which is all it ever holds); the dimension
query performs no check of its own — an index `≥ pageCount` or
`< -pageCount` fails through the library, but a negative index in
`[-pageCount, -1]` silently wraps Python-style to `pageCount + index`. -/
theorem page_access_out_of_range (doc : PDFDoc) (cache : List ((ℤ × ℕ) × Img))
    (page : ℤ) (dpi : ℕ)
    (hcache : ∀ k ∈ dictKeys cache, 0 ≤ k.1 ∧ k.1 < (doc.pageCount : ℤ)) :
    (page < 0 ∨ (doc.pageCount : ℤ) ≤ page →
      get_page_as_image doc cache page dpi = .error "page number out of range") ∧
    ((doc.pageCount : ℤ) ≤ page →
      get_page_dimensions doc page = .error "page not in document") ∧
    (page < -(doc.pageCount : ℤ) →
      get_page_dimensions doc page = .error "page not in document") ∧
    (-(doc.pageCount : ℤ) ≤ page → page < 0 →
      get_page_dimensions doc page
        = .ok (doc.pageRect (page + (doc.pageCount : ℤ)).toNat)) := by
  refine ⟨fun hout => ?_, fun hge => ?_, fun hlt => ?_, fun hge hneg => ?_⟩
  · unfold get_page_as_image
    have hnone : dictLookup cache (page, dpi) = none := by
      cases hval : dictLookup cache (page, dpi) with
      | none => rfl
      | some im =>
        have hmem := hcache _ (mem_of_dictLookup_eq_some hval)
        simp only at hmem
        omega
    rw [hnone]
    exact if_pos hout
  · unfold get_page_dimensions fitzLoadPage
    have hcnt : (0 : ℤ) ≤ doc.pageCount := Int.natCast_nonneg _
    dsimp only
    rw [if_neg (show ¬page < 0 by omega),
      if_neg (show ¬((0 : ℤ) ≤ page ∧ page < (doc.pageCount : ℤ)) by omega)]
    rfl
  · unfold get_page_dimensions fitzLoadPage
    have hcnt : (0 : ℤ) ≤ doc.pageCount := Int.natCast_nonneg _
    dsimp only
    rw [if_pos (show page < 0 by omega),
      if_neg (show ¬((0 : ℤ) ≤ page + (doc.pageCount : ℤ) ∧
        page + (doc.pageCount : ℤ) < (doc.pageCount : ℤ)) by omega)]
    rfl
  · unfold get_page_dimensions fitzLoadPage
    dsimp only
    rw [if_pos hneg,
      if_pos (show (0 : ℤ) ≤ page + (doc.pageCount : ℤ) ∧
        page + (doc.pageCount : ℤ) < (doc.pageCount : ℤ) by constructor <;> omega)]
    rfl

/-- Witness for C8 (amended), at a concrete one-page document: rendering
page 5 fails. -/
theorem page_access_out_of_range_witness :
    get_page_as_image pdfDocOne [] 5 150 = .error "page number out of range" :=
  (page_access_out_of_range pdfDocOne [] 5 150 (by simp [dictKeys])).1
    (Or.inr (by decide))

/-- Counterexample to C8 as stated: on a one-page document, querying the
dimensions of page `-1` — outside `[0, 1)` — does not fail; it silently
wraps to page 0 and returns its dimensions. -/
theorem page_dimensions_wrap_counterexample :
    get_page_dimensions pdfDocOne (-1) = .ok (612, 792) ∧ (-1 : ℤ) < 0 ∧
      pdfDocOne.pageCount = 1 := by
  refine ⟨?_, by decide, rfl⟩
  rfl

/- ### Dict and render-cache lemmas -/

/-- Inserting a fresh key appends it. -/
lemma dictInsert_fresh {K V : Type} [DecidableEq K] (c : List (K × V)) (k : K) (v : V)
    (hk : k ∉ dictKeys c) : dictInsert c k v = c ++ [(k, v)] := by
  induction c with
  | nil => rfl
  | cons kv t ih =>
    obtain ⟨k0, v0⟩ := kv
    simp only [dictKeys, List.map_cons, List.mem_cons, not_or] at hk
    rw [dictInsert, if_neg (fun hh => hk.1 hh.symm), List.cons_append,
      ih (by simpa [dictKeys] using hk.2)]

/-- Keys of a batch of pairs with a constant value. -/
lemma dictKeys_map_pair {K V : Type} (ks : List K) (v : V) :
    dictKeys (ks.map fun k => (k, v)) = ks := by
  rw [dictKeys, List.map_map, show Prod.fst ∘ (fun k : K => (k, v)) = id from rfl,
    List.map_id]

/-- Keys of an appended dict. -/
lemma dictKeys_append {K V : Type} (c1 c2 : List (K × V)) :
    dictKeys (c1 ++ c2) = dictKeys c1 ++ dictKeys c2 := by
  simp [dictKeys]

/-- Inserting at most 201 distinct pages into an empty render cache never
evicts: the entries are exactly the inserted keys in order. -/
lemma renderInsertAll_fresh {K V : Type} [DecidableEq K] (ks : List K) (v : V)
    (hnd : ks.Nodup) (hlen : ks.length ≤ 201) :
    renderInsertAll ks v = ⟨ks.map fun k => (k, v), 0⟩ := by
  induction ks using List.reverseRecOn with
  | nil => rfl
  | append_singleton l a ih =>
    have hl : l.Nodup ∧ a ∉ l := by
      rw [List.nodup_append] at hnd
      exact ⟨hnd.1, fun ha => hnd.2.2 ha (List.mem_singleton_self a)⟩
    have hlen2 : l.length + 1 ≤ 201 := by simpa using hlen
    unfold renderInsertAll at ih ⊢
    rw [List.foldl_append, ih hl.1 (by omega)]
    show set_rendered_page ⟨l.map fun k => (k, v), 0⟩ a v = _
    unfold set_rendered_page
    rw [if_neg (by simp; omega)]
    rw [dictInsert_fresh _ _ _ (by rw [dictKeys_map_pair]; exact hl.2)]
    simp

/-- Counterexample to C2 as stated: inserting 201 distinct rendered pages
into an empty cache leaves 201 entries and zero evictions — the 201st
insertion does not trigger the bulk eviction (the source only evicts when
the dict already holds more than 200 entries). -/
theorem render_cache_201_no_eviction :
    (renderInsertAll (List.range 201) ()).entries.length = 201 ∧
    (renderInsertAll (List.range 201) ()).evictions = 0 := by
  rw [renderInsertAll_fresh (List.range 201) () (List.nodup_range _) (by simp)]
  simp

/-- C2 (amended): the render cache evicts only when an insertion finds
the map already holding more than 200 entries; with distinct keys the
cache grows to 201 entries with no eviction, and the 202nd distinct
insertion removes the 50 structurally-oldest entries in one step (50
evictions at once) before inserting, leaving exactly the keys from
position 50 on. -/
theorem render_cache_bulk_eviction {K V : Type} [DecidableEq K] (ks : List K) (v : V)
    (hnd : ks.Nodup) (hlen : ks.length = 202) :
    (renderInsertAll (ks.take 201) v).entries.length = 201 ∧
    (renderInsertAll (ks.take 201) v).evictions = 0 ∧
    (renderInsertAll ks v).entries = (ks.drop 50).map (fun k => (k, v)) ∧
    (renderInsertAll ks v).entries.length = 152 ∧
    (renderInsertAll ks v).evictions = 50 ∧
    (∀ k ∈ ks.take 50, k ∉ dictKeys (renderInsertAll ks v).entries) := by
  have hne : ks ≠ [] := by
    intro hh
    rw [hh] at hlen
    simp at hlen
  obtain ⟨init, last, rfl⟩ : ∃ init last, ks = init ++ [last] :=
    ⟨ks.dropLast, ks.getLast hne, (List.dropLast_append_getLast hne).symm⟩
  have hinitlen : init.length = 201 := by
    simp only [List.length_append, List.length_singleton] at hlen
    omega
  have hinit : (init ++ [last]).take 201 = init := by
    rw [List.take_append_of_le_length (by omega), List.take_of_length_le (by omega)]
  have hnd2 : init.Nodup ∧ last ∉ init := by
    rw [List.nodup_append] at hnd
    exact ⟨hnd.1, fun ha => hnd.2.2 ha (List.mem_singleton_self last)⟩
  have hfresh := renderInsertAll_fresh init v hnd2.1 (by omega)
  have hfull : renderInsertAll (init ++ [last]) v
      = ⟨((init.map fun k => (k, v)).drop 50) ++ [(last, v)], 50⟩ := by
    unfold renderInsertAll at hfresh ⊢
    rw [List.foldl_append, hfresh]
    show set_rendered_page ⟨init.map fun k => (k, v), 0⟩ last v = _
    unfold set_rendered_page
    rw [if_pos (by simp; omega)]
    have hlf : last ∉ dictKeys ((init.map fun k => (k, v)).drop 50) := by
      rw [← List.map_drop, dictKeys_map_pair]
      exact fun hmem => hnd2.2 (List.mem_of_mem_drop hmem)
    rw [dictInsert_fresh _ _ _ hlf]
  have hdrop : ((init ++ [last]).drop 50) = init.drop 50 ++ [last] :=
    List.drop_append_of_le_length (by omega)
  refine ⟨?_, ?_, ?_, ?_, ?_, ?_⟩
  · rw [hinit, hfresh]
    simp [hinitlen]
  · rw [hinit, hfresh]
  · rw [hfull, hdrop]
    simp [List.map_drop]
  · rw [hfull]
    simp [hinitlen]
  · rw [hfull]
  · intro k hk hmem
    rw [hfull] at hmem
    have hkeys : dictKeys ((init.map fun k => (k, v)).drop 50 ++ [(last, v)])
        = init.drop 50 ++ [last] := by
      rw [dictKeys_append, ← List.map_drop, dictKeys_map_pair]
      rfl
    rw [hkeys] at hmem
    have hktake : k ∈ init.take 50 := by
      rw [List.take_append_of_le_length (by omega)] at hk
      exact hk
    rcases List.mem_append.mp hmem with hmem | hmem
    · exact List.disjoint_take_drop hnd2.1 (le_refl 50) hktake hmem
    · rw [List.mem_singleton] at hmem
      subst hmem
      exact hnd2.2 (List.mem_of_mem_take hktake)

/-- Witness for C2 (amended): 202 distinct concrete pages. -/
theorem render_cache_bulk_eviction_witness :
    (renderInsertAll (List.range 202) ()).entries.length = 152 ∧
    (renderInsertAll (List.range 202) ()).evictions = 50 :=
  ⟨(render_cache_bulk_eviction (List.range 202) () (List.nodup_range _) (by simp)).2.2.2.1,
   (render_cache_bulk_eviction (List.range 202) () (List.nodup_range _) (by simp)).2.2.2.2.1⟩

/- ### LRU cache lemmas -/

/-- A lookup succeeds exactly when the key is present. -/
lemma dictLookup_isSome_iff {K V : Type} [DecidableEq K] (c : List (K × V)) (k : K) :
    (dictLookup c k).isSome ↔ k ∈ dictKeys c := by
  induction c with
  | nil => simp [dictLookup, dictKeys]
  | cons kv t ih =>
    obtain ⟨k0, v0⟩ := kv
    rw [dictLookup]
    by_cases hk : k0 = k
    · subst hk
      simp [dictKeys]
    · rw [if_neg hk, ih]
      simp only [dictKeys, List.map_cons, List.mem_cons]
      constructor
      · exact Or.inr
      · rintro (rfl | hh)
        · exact absurd rfl hk
        · exact hh

/-- A lookup misses exactly when the key is absent. -/
lemma dictLookup_eq_none_iff {K V : Type} [DecidableEq K] (c : List (K × V)) (k : K) :
    dictLookup c k = none ↔ k ∉ dictKeys c := by
  rw [← dictLookup_isSome_iff]
  cases dictLookup c k <;> simp

/-- Updating an existing key leaves the key list unchanged. -/
lemma dictKeys_dictInsert_mem {K V : Type} [DecidableEq K] (c : List (K × V)) (k : K)
    (v : V) (h : k ∈ dictKeys c) : dictKeys (dictInsert c k v) = dictKeys c := by
  induction c with
  | nil => simp [dictKeys] at h
  | cons kv t ih =>
    obtain ⟨k0, v0⟩ := kv
    rw [dictInsert]
    by_cases hk : k0 = k
    · subst hk
      rw [if_pos rfl]
      simp [dictKeys]
    · rw [if_neg hk]
      have hmem : k ∈ dictKeys t := by
        simp only [dictKeys, List.map_cons, List.mem_cons] at h
        rcases h with rfl | hh
        · exact absurd rfl hk
        · exact hh
      simp only [dictKeys, List.map_cons]
      rw [show List.map Prod.fst (dictInsert t k v) = dictKeys t from ih hmem]
      rfl

/-- Deleting a key erases it from the key list. -/
lemma dictKeys_dictErase {K V : Type} [DecidableEq K] (c : List (K × V)) (kk : K) :
    dictKeys (dictErase c kk) = (dictKeys c).erase kk := by
  induction c with
  | nil => simp [dictErase, dictKeys]
  | cons kv t ih =>
    obtain ⟨k0, v0⟩ := kv
    rw [dictErase]
    by_cases hk : k0 = kk
    · subst hk
      rw [if_pos rfl]
      simp [dictKeys, List.erase_cons_head]
    · rw [if_neg hk]
      simp only [dictKeys, List.map_cons]
      rw [List.erase_cons, if_neg (by simpa using hk)]
      rw [show List.map Prod.fst (dictErase t kk) = (dictKeys t).erase kk from ih]
      rfl

/-- Inserting one key does not change lookups of other keys. -/
lemma dictLookup_dictInsert_ne {K V : Type} [DecidableEq K] (c : List (K × V))
    (k : K) (v : V) (k' : K) (h : k' ≠ k) :
    dictLookup (dictInsert c k v) k' = dictLookup c k' := by
  induction c with
  | nil =>
    show dictLookup [(k, v)] k' = none
    rw [dictLookup, if_neg (fun hh => h hh.symm)]
    rfl
  | cons kv t ih =>
    obtain ⟨k0, v0⟩ := kv
    rw [dictInsert]
    by_cases hk : k0 = k
    · subst hk
      rw [if_pos rfl, dictLookup, dictLookup,
        if_neg (fun hh => h hh.symm), if_neg (fun hh => h hh.symm)]
    · rw [if_neg hk, dictLookup, dictLookup]
      by_cases hk0 : k0 = k'
      · rw [if_pos hk0, if_pos hk0]
      · rw [if_neg hk0, if_neg hk0, ih]

/-- Deleting one key does not change lookups of other keys. -/
lemma dictLookup_dictErase_ne {K V : Type} [DecidableEq K] (c : List (K × V))
    (kk k' : K) (h : k' ≠ kk) :
    dictLookup (dictErase c kk) k' = dictLookup c k' := by
  induction c with
  | nil => rfl
  | cons kv t ih =>
    obtain ⟨k0, v0⟩ := kv
    rw [dictErase]
    by_cases hk : k0 = kk
    · subst hk
      rw [if_pos rfl, dictLookup, if_neg (fun hh => h (hh.symm))]
    · rw [if_neg hk, dictLookup, dictLookup]
      by_cases hk0 : k0 = k'
      · rw [if_pos hk0, if_pos hk0]
      · rw [if_neg hk0, if_neg hk0, ih]

/-- Filtering a dict filters its key list. -/
lemma dictKeys_filter {K V : Type} (p : K → Bool) (c : List (K × V)) :
    dictKeys (c.filter fun kv => !(p kv.1)) = (dictKeys c).filter fun k => !(p k) := by
  induction c with
  | nil => rfl
  | cons kv t ih =>
    obtain ⟨k0, v0⟩ := kv
    simp only [List.filter_cons]
    by_cases hp : p k0 <;> simp [hp, dictKeys, ih] <;>
      simpa [dictKeys] using ih

/-- The key list is as long as the dict. -/
lemma dictKeys_length {K V : Type} (c : List (K × V)) :
    (dictKeys c).length = c.length := List.length_map c Prod.fst

/-- The empty LRU state satisfies the synchronization invariant. -/
lemma lruInv_lruEmpty {K V : Type} : LRUInv (lruEmpty : LRUState K V) :=
  ⟨by simp [lruEmpty, dictKeys], by simp [lruEmpty]⟩

/-- A hit promotes the key to the most-recently-used end. -/
lemma lruStep_get_of_isSome {K V : Type} [DecidableEq K] (maxsize : ℕ)
    (s : LRUState K V) (k : K) (v0 : V) (hv : dictLookup s.cache k = some v0) :
    lruStep maxsize s (.get k) = ⟨s.cache, s.order.erase k ++ [k]⟩ := by
  show (lruGet s k).2 = _
  unfold lruGet
  rw [hv]

/-- A miss leaves the state unchanged. -/
lemma lruStep_get_of_none {K V : Type} [DecidableEq K] (maxsize : ℕ)
    (s : LRUState K V) (k : K) (hv : dictLookup s.cache k = none) :
    lruStep maxsize s (.get k) = s := by
  show (lruGet s k).2 = _
  unfold lruGet
  rw [hv]

/-- Moving an element of a list to the back is a permutation. -/
lemma perm_erase_append {α : Type} [DecidableEq α] (l : List α) (k : α) (hk : k ∈ l) :
    (l.erase k ++ [k]).Perm l :=
  (List.perm_append_singleton k (l.erase k)).trans (List.perm_cons_erase hk).symm

/-- Moving an element of a duplicate-free list to the back keeps it
duplicate-free. -/
lemma nodup_erase_append {α : Type} [DecidableEq α] (l : List α) (k : α)
    (h : l.Nodup) : (l.erase k ++ [k]).Nodup := by
  rw [List.nodup_append]
  refine ⟨h.erase k, List.nodup_singleton k, ?_⟩
  intro a ha hb
  rw [List.mem_singleton] at hb
  subst hb
  exact ((List.Nodup.mem_erase_iff h).mp ha).1 rfl

/-- Every LRU operation preserves the dict/order synchronization
invariant. -/
lemma lruInv_lruStep {K V : Type} [DecidableEq K] (maxsize : ℕ) (s : LRUState K V)
    (op : LRUOp K V) (h : LRUInv s) : LRUInv (lruStep maxsize s op) := by
  obtain ⟨hperm, hnd⟩ := h
  cases op with
  | get k =>
    cases hv : dictLookup s.cache k with
    | none =>
      rw [lruStep_get_of_none _ _ _ hv]
      exact ⟨hperm, hnd⟩
    | some v0 =>
      rw [lruStep_get_of_isSome _ _ _ _ hv]
      have hk : k ∈ dictKeys s.cache := mem_of_dictLookup_eq_some hv
      have hko : k ∈ s.order := hperm.mem_iff.mpr hk
      exact ⟨(perm_erase_append _ _ hko).trans hperm, nodup_erase_append _ _ hnd⟩
  | set k v =>
    show LRUInv (lruSet maxsize s k v)
    unfold lruSet
    by_cases hv : (dictLookup s.cache k).isSome
    · rw [if_pos hv]
      have hk : k ∈ dictKeys s.cache := (dictLookup_isSome_iff _ _).mp hv
      have hko : k ∈ s.order := hperm.mem_iff.mpr hk
      constructor
      · show (s.order.erase k ++ [k]).Perm (dictKeys (dictInsert s.cache k v))
        rw [dictKeys_dictInsert_mem _ _ _ hk]
        exact (perm_erase_append _ _ hko).trans hperm
      · exact nodup_erase_append _ _ hnd
    · rw [if_neg hv]
      have hk : k ∉ dictKeys s.cache := by rwa [dictLookup_isSome_iff] at hv
      have hko : k ∉ s.order := fun hh => hk (hperm.mem_iff.mp hh)
      by_cases hcap : maxsize ≤ s.cache.length
      · rw [if_pos hcap]
        cases horder : s.order with
        | nil =>
          have hkeys : dictKeys s.cache = [] := by
            rw [horder] at hperm
            exact hperm.symm.eq_nil
          have hc : s.cache = [] := by
            have hl := congrArg List.length hkeys
            rw [dictKeys_length] at hl
            exact List.length_eq_zero.mp (by simpa using hl)
          constructor
          · show List.Perm [k] (dictKeys (dictInsert s.cache k v))
            rw [hc]
            exact List.Perm.refl _
          · exact List.nodup_singleton k
        | cons lru rest =>
          have hlmem : lru ∈ s.order := by
            rw [horder]
            exact List.mem_cons_self _ _
          have hrest : rest.Perm ((dictKeys s.cache).erase lru) := by
            have hh := hperm.erase lru
            rwa [horder, List.erase_cons_head] at hh
          have hkfresh : k ∉ dictKeys (dictErase s.cache lru) := by
            rw [dictKeys_dictErase]
            exact fun hh => hk (List.mem_of_mem_erase hh)
          constructor
          · show (rest ++ [k]).Perm (dictKeys (dictInsert (dictErase s.cache lru) k v))
            rw [dictInsert_fresh _ _ _ hkfresh, dictKeys_append, dictKeys_dictErase]
            exact hrest.append_right [k]
          · rw [List.nodup_append]
            have hndr : rest.Nodup := by
              rw [horder] at hnd
              exact hnd.of_cons
            refine ⟨hndr, List.nodup_singleton k, ?_⟩
            intro a ha hb
            rw [List.mem_singleton] at hb
            subst hb
            exact hko (by rw [horder]; exact List.mem_cons_of_mem _ ha)
      · rw [if_neg hcap]
        constructor
        · show (s.order ++ [k]).Perm (dictKeys (dictInsert s.cache k v))
          rw [dictInsert_fresh _ _ _ hk, dictKeys_append]
          exact hperm.append_right _
        · rw [List.nodup_append]
          refine ⟨hnd, List.nodup_singleton k, ?_⟩
          intro a ha hb
          rw [List.mem_singleton] at hb
          subst hb
          exact hko ha
  | clearPdf p =>
    constructor
    · show (s.order.filter _).Perm (dictKeys (s.cache.filter _))
      rw [dictKeys_filter]
      exact hperm.filter _
    · exact hnd.filter _
  | clear =>
    show LRUInv (lruEmpty : LRUState K V)
    exact lruInv_lruEmpty

/-- No LRU operation can push the dict above `maxsize` entries. -/
lemma lruStep_size {K V : Type} [DecidableEq K] (maxsize : ℕ) (hmax : 1 ≤ maxsize)
    (s : LRUState K V) (op : LRUOp K V) (hinv : LRUInv s)
    (hle : s.cache.length ≤ maxsize) :
    (lruStep maxsize s op).cache.length ≤ maxsize := by
  obtain ⟨hperm, hnd⟩ := hinv
  cases op with
  | get k =>
    cases hv : dictLookup s.cache k with
    | none =>
      rw [lruStep_get_of_none _ _ _ hv]
      exact hle
    | some v0 =>
      rw [lruStep_get_of_isSome _ _ _ _ hv]
      exact hle
  | set k v =>
    show (lruSet maxsize s k v).cache.length ≤ maxsize
    unfold lruSet
    by_cases hv : (dictLookup s.cache k).isSome
    · rw [if_pos hv]
      show (dictInsert s.cache k v).length ≤ maxsize
      have hkeys := dictKeys_dictInsert_mem s.cache k v ((dictLookup_isSome_iff _ _).mp hv)
      have hlen : (dictInsert s.cache k v).length = s.cache.length := by
        rw [← dictKeys_length, hkeys, dictKeys_length]
      omega
    · rw [if_neg hv]
      have hk : k ∉ dictKeys s.cache := by rwa [dictLookup_isSome_iff] at hv
      by_cases hcap : maxsize ≤ s.cache.length
      · rw [if_pos hcap]
        cases horder : s.order with
        | nil =>
          exfalso
          rw [horder] at hperm
          have hkeys : dictKeys s.cache = [] := hperm.symm.eq_nil
          have hc : s.cache.length = 0 := by
            have hl := congrArg List.length hkeys
            rw [dictKeys_length] at hl
            simpa using hl
          omega
        | cons lru rest =>
          show (dictInsert (dictErase s.cache lru) k v).length ≤ maxsize
          have hlruk : lru ∈ dictKeys s.cache :=
            hperm.mem_iff.mp (by rw [horder]; exact List.mem_cons_self _ _)
          have hkfresh : k ∉ dictKeys (dictErase s.cache lru) := by
            rw [dictKeys_dictErase]
            exact fun hh => hk (List.mem_of_mem_erase hh)
          rw [dictInsert_fresh _ _ _ hkfresh]
          have hel : (dictErase s.cache lru).length = s.cache.length - 1 := by
            rw [← dictKeys_length, dictKeys_dictErase,
              List.length_erase_of_mem hlruk, dictKeys_length]
          have hpos : 0 < s.cache.length := by
            have hp : 0 < (dictKeys s.cache).length :=
              List.length_pos.mpr (List.ne_nil_of_mem hlruk)
            rwa [dictKeys_length] at hp
          rw [List.length_append]
          simp only [List.length_singleton]
          omega
      · rw [if_neg hcap]
        show (dictInsert s.cache k v).length ≤ maxsize
        rw [dictInsert_fresh _ _ _ hk, List.length_append]
        simp only [List.length_singleton]
        omega
  | clearPdf p =>
    show (s.cache.filter _).length ≤ maxsize
    exact le_trans (List.length_filter_le _ _) hle
  | clear =>
    show (lruEmpty : LRUState K V).cache.length ≤ maxsize
    simp [lruEmpty]

/-- Any run from the empty cache satisfies the invariant and the size
bound. -/
lemma lruRun_facts {K V : Type} [DecidableEq K] (maxsize : ℕ) (hmax : 1 ≤ maxsize)
    (ops : List (LRUOp K V)) :
    LRUInv (lruRun maxsize ops) ∧ (lruRun maxsize ops).cache.length ≤ maxsize := by
  suffices hgen : ∀ (s : LRUState K V), LRUInv s → s.cache.length ≤ maxsize →
      LRUInv (ops.foldl (lruStep maxsize) s) ∧
      (ops.foldl (lruStep maxsize) s).cache.length ≤ maxsize by
    exact hgen lruEmpty lruInv_lruEmpty (by simp [lruEmpty])
  induction ops with
  | nil =>
    intro s h1 h2
    exact ⟨h1, h2⟩
  | cons op t ih =>
    intro s h1 h2
    rw [List.foldl_cons]
    exact ih _ (lruInv_lruStep _ _ _ h1) (lruStep_size _ hmax _ _ h1 h2)

/-- Inserting at most 100 distinct fresh keys from empty: the dict holds
them all in insertion order, which is also the access order. -/
lemma lru_insertAll_fresh {K V : Type} [DecidableEq K] (ks : List K) (v : V)
    (hnd : ks.Nodup) (hlen : ks.length ≤ 100) :
    lruRun 100 (ks.map fun k => LRUOp.set k v) = ⟨ks.map fun k => (k, v), ks⟩ := by
  induction ks using List.reverseRecOn with
  | nil => rfl
  | append_singleton l a ih =>
    have hl : l.Nodup ∧ a ∉ l := by
      rw [List.nodup_append] at hnd
      exact ⟨hnd.1, fun ha => hnd.2.2 ha (List.mem_singleton_self a)⟩
    have hlen2 : l.length + 1 ≤ 100 := by simpa using hlen
    unfold lruRun at ih ⊢
    rw [List.map_append, List.foldl_append, ih hl.1 (by omega)]
    show lruSet 100 ⟨l.map fun k => (k, v), l⟩ a v = _
    unfold lruSet
    have hfresh : a ∉ dictKeys (l.map fun k => (k, v)) := by
      rw [dictKeys_map_pair]
      exact hl.2
    have hnone : dictLookup (l.map fun k => (k, v)) a = none :=
      (dictLookup_eq_none_iff _ _).mpr hfresh
    rw [if_neg (by simp [hnone])]
    rw [if_neg (by simp only [List.length_map]; omega)]
    rw [dictInsert_fresh _ _ _ hfresh]
    simp

/-- C5: the filter cache is an LRU map of capacity 100. After any
operation sequence it holds at most 100 entries; inserting 101 distinct
entries into an empty cache evicts exactly the first (least recently
used) one, keeping the other 100; and a hit on a cached key followed by
one insertion of a fresh key never evicts the hit key. -/
theorem filter_cache_lru_spec (K V : Type) [DecidableEq K] :
    (∀ ops : List (LRUOp K V), (lruRun 100 ops).cache.length ≤ 100) ∧
    (∀ (ks : List K) (v : V), ks.Nodup → ks.length = 101 →
      (lruRun 100 (ks.map fun k => LRUOp.set k v)).cache
          = (ks.drop 1).map (fun k => (k, v)) ∧
      (lruRun 100 (ks.map fun k => LRUOp.set k v)).cache.length = 100) ∧
    (∀ (ops : List (LRUOp K V)) (k k' : K) (v' : V),
      (dictLookup (lruRun 100 ops).cache k).isSome →
      dictLookup (lruRun 100 ops).cache k' = none →
      (dictLookup (lruStep 100 (lruStep 100 (lruRun 100 ops) (LRUOp.get k))
          (LRUOp.set k' v')).cache k).isSome) := by
  refine ⟨fun ops => (lruRun_facts 100 (by omega) ops).2, ?_, ?_⟩
  · intro ks v hnd hlen
    have hne : ks ≠ [] := by
      intro hh
      rw [hh] at hlen
      simp at hlen
    obtain ⟨init, last, rfl⟩ : ∃ i l, ks = i ++ [l] :=
      ⟨ks.dropLast, ks.getLast hne, (List.dropLast_append_getLast hne).symm⟩
    have hil : init.length = 100 := by
      simp at hlen
      omega
    have hnd2 : init.Nodup ∧ last ∉ init := by
      rw [List.nodup_append] at hnd
      exact ⟨hnd.1, fun ha => hnd.2.2 ha (List.mem_singleton_self last)⟩
    have hfresh := lru_insertAll_fresh init v hnd2.1 (by omega)
    have hrun : lruRun 100 ((init ++ [last]).map fun k => LRUOp.set k v)
        = lruSet 100 ⟨init.map fun k => (k, v), init⟩ last v := by
      unfold lruRun at hfresh ⊢
      rw [List.map_append, List.foldl_append, hfresh]
      rfl
    obtain ⟨h0, rest, rfl⟩ : ∃ h0 rest, init = h0 :: rest := by
      cases init with
      | nil => simp at hil
      | cons x t => exact ⟨x, t, rfl⟩
    have hset : lruSet 100 ⟨(h0 :: rest).map fun k => (k, v), h0 :: rest⟩ last v
        = ⟨(rest ++ [last]).map fun k => (k, v), rest ++ [last]⟩ := by
      unfold lruSet
      have hfr : last ∉ dictKeys ((h0 :: rest).map fun k => (k, v)) := by
        rw [dictKeys_map_pair]
        exact hnd2.2
      have hnone : dictLookup ((h0 :: rest).map fun k => (k, v)) last = none :=
        (dictLookup_eq_none_iff _ _).mpr hfr
      rw [if_neg (by simpa using hnone)]
      rw [if_pos (by simp only [List.length_map]; omega)]
      show LRUState.mk
        (dictInsert (dictErase ((h0 :: rest).map fun k => (k, v)) h0) last v)
        (rest ++ [last]) = _
      have herase : dictErase ((h0 :: rest).map fun k => (k, v)) h0
          = rest.map fun k => (k, v) := by
        show dictErase ((h0, v) :: rest.map fun k => (k, v)) h0 = _
        rw [dictErase, if_pos rfl]
      rw [herase]
      have hf2 : last ∉ dictKeys (rest.map fun k => (k, v)) := by
        rw [dictKeys_map_pair]
        exact fun hh => hnd2.2 (List.mem_cons_of_mem _ hh)
      rw [dictInsert_fresh _ _ _ hf2]
      simp
    rw [hrun, hset]
    constructor
    · simp
    · simp only [List.length_map, List.length_append, List.length_singleton]
      simp at hil
      omega
  · intro ops k k' v' hk hk'
    obtain ⟨⟨hperm, hnd⟩, hsize⟩ := lruRun_facts 100 (by omega) ops
    obtain ⟨v0, hv0⟩ := Option.isSome_iff_exists.mp hk
    rw [lruStep_get_of_isSome 100 _ _ _ hv0]
    have hkk : k ≠ k' := by
      intro hh
      rw [← hh, hv0] at hk'
      exact Option.noConfusion hk'
    show (dictLookup (lruSet 100 ⟨(lruRun 100 ops).cache,
        (lruRun 100 ops).order.erase k ++ [k]⟩ k' v').cache k).isSome
    unfold lruSet
    rw [if_neg (by simp [hk'])]
    by_cases hcap : 100 ≤ (lruRun 100 ops).cache.length
    · rw [if_pos hcap]
      have hck : (lruRun 100 ops).cache.length = 100 := le_antisymm hsize hcap
      have holen : (lruRun 100 ops).order.length = 100 := by
        rw [hperm.length_eq, dictKeys_length, hck]
      have hkmem : k ∈ (lruRun 100 ops).order :=
        hperm.mem_iff.mpr ((dictLookup_isSome_iff _ _).mp hk)
      have helen : ((lruRun 100 ops).order.erase k).length = 99 := by
        rw [List.length_erase_of_mem hkmem, holen]
      obtain ⟨e0, etail, he⟩ : ∃ e0 etail,
          (lruRun 100 ops).order.erase k = e0 :: etail := by
        cases hh : (lruRun 100 ops).order.erase k with
        | nil =>
          rw [hh] at helen
          simp at helen
        | cons x t => exact ⟨x, t, rfl⟩
      rw [he]
      show (dictLookup (dictInsert (dictErase (lruRun 100 ops).cache e0) k' v') k).isSome
      have he0 : e0 ≠ k := by
        intro hh
        subst hh
        have hmm : e0 ∈ (lruRun 100 ops).order.erase e0 := by
          rw [he]
          exact List.mem_cons_self _ _
        exact ((List.Nodup.mem_erase_iff hnd).mp hmm).1 rfl
      rw [dictLookup_dictInsert_ne _ _ _ _ hkk]
      rw [dictLookup_dictErase_ne _ _ _ (fun hh => he0 hh.symm)]
      rw [hv0]
      rfl
    · rw [if_neg hcap]
      show (dictLookup (dictInsert (lruRun 100 ops).cache k' v') k).isSome
      rw [dictLookup_dictInsert_ne _ _ _ _ hkk]
      rw [hv0]
      rfl

/-- Witness for C5: concrete natural-number keys — the size bound after
two inserts, the 101-insert eviction, and hit-then-insert keeping key 1. -/
theorem filter_cache_lru_spec_witness :
    (lruRun 100 ([LRUOp.set 1 0, LRUOp.set 2 0] : List (LRUOp ℕ ℕ))).cache.length ≤ 100 ∧
    (lruRun 100 ((List.range 101).map fun k => LRUOp.set k (0 : ℕ))).cache.length = 100 ∧
    (dictLookup (lruStep 100 (lruStep 100
        (lruRun 100 ([LRUOp.set 1 0, LRUOp.set 2 0] : List (LRUOp ℕ ℕ)))
        (LRUOp.get 1)) (LRUOp.set 3 0)).cache 1).isSome := by
  refine ⟨(filter_cache_lru_spec ℕ ℕ).1 _, ?_, ?_⟩
  · exact ((filter_cache_lru_spec ℕ ℕ).2.1 (List.range 101) 0
      (List.nodup_range _) (by simp)).2
  · exact (filter_cache_lru_spec ℕ ℕ).2.2 [LRUOp.set 1 0, LRUOp.set 2 0] 1 3 0
      (by decide) (by decide)

end PdfMagick
